import Mathlib

/-!
# Verification of the token-input / role-disambiguation subsystem

This file gives a shallow embedding, over `List Char` / `String`, of the core
logic of the `ivalue-sales-chatbot` frontend:

* the token parser of `TokenInput.js` (the `useEffect` that splits the input
  on the regex `(\[[^\]]+\])` and classifies the parts),
* the click-ordinal computation of `TokenInput.js` (`handleTokenClick`),
* the role resolver of `RoleBasedDropdown.js` (`getRoleFromPlaceholder`,
  `roleData` and the candidate lookup), and
* the selection applier of the chat container (`handleDropdownSelect`),
  including its regex-escaping fallback.

Modelling conventions:

* JavaScript strings are modelled as `List Char` (wrapped into `String` at the
  interfaces).  `toLowerCase`, `trim`, `split(/\s+/)` etc. are modelled
  character-wise; this is exact for ASCII input, which is the alphabet of all
  role keywords and catalogs in the source.
* JavaScript regexes are modelled by executable matching functions whose
  semantics follow the concrete patterns used in the source
  (`(\[[^\]]+\])`, `/\[name\]/gi`, `/\bkw\b/`, `A.*?B` and escaped literals).
  In `A.*?B` patterns, `.` does not match line terminators, as in JavaScript.
* Loops that advance a regex `lastIndex` (and other non-structural scans) are
  written with an explicit fuel argument; the public wrappers supply a fuel
  that provably suffices (see the termination theorem for claim C6).
* JavaScript object property reads go through the prototype chain; an object
  literal inherits the (truthy, non-string) members of `Object.prototype`,
  e.g. `constructor` and `__proto__`.  `jsGetDirect` models this faithfully
  with the `JSVal` type below.
-/

set_option maxRecDepth 8000

namespace IvalueChatbot

/-- ASCII lower-casing of a character list; models `String.prototype.toLowerCase`
on the ASCII inputs used throughout the component. -/
def lowerL (cs : List Char) : List Char := cs.map Char.toLower

/-- Whitespace test used for `trim` and `split(/\s+/)`. -/
def isWs (c : Char) : Bool := c.isWhitespace

/-- Models `String.prototype.trim`: drop whitespace from both ends. -/
def trimL (cs : List Char) : List Char :=
  ((cs.dropWhile isWs).reverse.dropWhile isWs).reverse

/-- Models `hay.includes(needle)` on strings: substring containment. -/
def containsSub : List Char → List Char → Bool
  | [], needle => needle.isEmpty
  | c :: t, needle => needle.isPrefixOf (c :: t) || containsSub t needle

/--
Models one attempt of the regex `\[[^\]]+\]` at the start of `cs`
(as used by `value.split(/(\[[^\]]+\])/g)`, `input.match(/\[[^\]]+\]/g)` and
the global replace in `handleDropdownSelect`): an opening bracket, a
non-empty run of non-`]` characters, then a closing bracket.
Returns the matched text and the remaining input.
-/
def tokenSpan (cs : List Char) : Option (List Char × List Char) :=
  match cs with
  | [] => none
  | c :: rest =>
    if c = '[' then
      if (rest.takeWhile (fun x => x ≠ ']')).isEmpty then none
      else
        match rest.dropWhile (fun x => x ≠ ']') with
        | [] => none
        | _ :: after =>
          -- the head of the dropWhile remainder is the closing `]` itself
          some (c :: (rest.takeWhile (fun x => x ≠ ']') ++ [']']), after)
    else none

theorem head_dropWhile_not {p : Char → Bool} {l : List Char} {d : Char} {ds : List Char}
    (h : l.dropWhile p = d :: ds) : p d = false := by
  induction l with
  | nil => simp [List.dropWhile] at h
  | cons c t ih =>
    rw [List.dropWhile_cons] at h
    by_cases hc : p c
    · rw [if_pos hc] at h
      exact ih h
    · rw [if_neg hc] at h
      cases h
      exact Bool.of_not_eq_true hc

theorem tokenSpan_spec {cs tok after : List Char}
    (h : tokenSpan cs = some (tok, after)) : tok ++ after = cs ∧ tok ≠ [] := by
  cases cs with
  | nil => simp [tokenSpan] at h
  | cons c rest =>
    simp only [tokenSpan] at h
    by_cases hc : c = '['
    · rw [if_pos hc] at h
      by_cases hm : (rest.takeWhile (fun x => x ≠ ']')).isEmpty
      · rw [if_pos hm] at h; cases h
      · rw [if_neg hm] at h
        revert h
        cases hd : rest.dropWhile (fun x => x ≠ ']') with
        | nil => intro h; cases h
        | cons d ds =>
          intro h
          have hdd : d = ']' := by
            have := head_dropWhile_not hd
            simpa using this
          have htok : tok = c :: (rest.takeWhile (fun x => x ≠ ']') ++ [']']) := by
            cases h; rfl
          have haft : after = ds := by cases h; rfl
          subst htok; subst haft
          constructor
          · have hsplit := List.takeWhile_append_dropWhile (fun x => x ≠ ']') rest
            rw [hd, hdd] at hsplit
            simp only [List.cons_append, List.cons.injEq, true_and]
            rw [List.append_assoc]
            simpa using hsplit
          · simp
    · rw [if_neg hc] at h; cases h

theorem tokenSpan_length {cs tok after : List Char}
    (h : tokenSpan cs = some (tok, after)) : after.length < cs.length := by
  obtain ⟨happ, hne⟩ := tokenSpan_spec h
  rw [← happ]
  cases tok with
  | nil => exact absurd rfl hne
  | cons x xs => simp; omega

/-- Prepend a text character to a part list: extend the leading text part if
there is one, otherwise start a new text part. -/
def consTextChar (c : Char) : List (Bool × List Char) → List (Bool × List Char)
  | (false, t) :: ps => (false, c :: t) :: ps
  | ps => (false, [c]) :: ps

/--
Models `value.split(/(\[[^\]]+\])/g)`: the list of parts, in order, each
tagged with whether it is a regex match (a delimiter kept by the capture
group, tag `true`) or an in-between text part (tag `false`).  As in
JavaScript, empty text parts appear between adjacent matches and at the
string boundaries.  `fuel` bounds the number of scanning steps; every step
consumes at least one character, so `fuel = cs.length` suffices (the fuel-0
fallback is only reached on the empty remainder then).
-/
def splitPartsF : Nat → List Char → List (Bool × List Char)
  | 0, _ => [(false, [])]
  | fuel + 1, cs =>
    match tokenSpan cs with
    | some ta => (false, []) :: (true, ta.1) :: splitPartsF fuel ta.2
    | none =>
      match cs with
      | [] => [(false, [])]
      | c :: rest => consTextChar c (splitPartsF fuel rest)

/-- The token-regex split of an input string (sufficient fuel supplied). -/
def jsSplitTokenRegex (cs : List Char) : List (Bool × List Char) :=
  splitPartsF cs.length cs

theorem splitPartsF_succ (fuel : Nat) (cs : List Char) :
    splitPartsF (fuel + 1) cs =
      match tokenSpan cs with
      | some ta => (false, []) :: (true, ta.1) :: splitPartsF fuel ta.2
      | none =>
        match cs with
        | [] => [(false, [])]
        | c :: rest => consTextChar c (splitPartsF fuel rest) := rfl

theorem consTextChar_join (c : Char) (ps : List (Bool × List Char)) :
    ((consTextChar c ps).map Prod.snd).flatten = c :: (ps.map Prod.snd).flatten := by
  cases ps with
  | nil => rfl
  | cons p ps =>
    obtain ⟨b, t⟩ := p
    cases b with
    | false => rfl
    | true => rfl

/-- Concatenating all parts of the split reproduces the input: the split is
lossless. -/
theorem splitPartsF_join (fuel : Nat) :
    ∀ cs : List Char, cs.length ≤ fuel →
      ((splitPartsF fuel cs).map Prod.snd).flatten = cs := by
  induction fuel with
  | zero =>
    intro cs h
    have : cs = [] := List.eq_nil_of_length_eq_zero (Nat.le_zero.mp h)
    subst this
    rfl
  | succ fuel ih =>
    intro cs h
    rw [splitPartsF_succ]
    cases hspan : tokenSpan cs with
    | some ta =>
      obtain ⟨tok, after⟩ := ta
      have hlen := tokenSpan_length hspan
      have happ := (tokenSpan_spec hspan).1
      simp only [List.map_cons, List.flatten_cons, List.nil_append]
      rw [ih after (by omega)]
      exact happ
    | none =>
      cases cs with
      | nil => rfl
      | cons c rest =>
        have hrest : rest.length ≤ fuel := by simp at h; omega
        simp only [consTextChar_join]
        rw [ih rest hrest]

theorem jsSplitTokenRegex_join (cs : List Char) :
    ((jsSplitTokenRegex cs).map Prod.snd).flatten = cs :=
  splitPartsF_join cs.length cs le_rfl

/-- Segment kind: plain text or a bracketed token. -/
inductive SegKind
  | text
  | token
deriving DecidableEq, Repr, Inhabited

/--
A parsed segment, as built by the `parts.map` in `TokenInput.js`:
`value` is the raw substring (called `raw` in the spec), `content` the
comparison form (for tokens: the bracket interior, trimmed and lower-cased;
for text: the raw text), and `key` the index of the part within the split
output (the source stores the same number also as `originalIndex`, and
`display` duplicates `value`; both are omitted as redundant).
-/
structure Segment where
  kind : SegKind
  value : String
  content : String
  key : Nat
deriving DecidableEq, Repr, Inhabited

/-- `part.startsWith('[')`. -/
def startsWithBracket (cs : List Char) : Bool :=
  match cs with
  | c :: _ => c = '['
  | [] => false

/-- `part.endsWith(']')`. -/
def endsWithBracket (cs : List Char) : Bool :=
  match cs.getLast? with
  | some d => d = ']'
  | none => false

/--
Classification of one split part, following the `parts.map` callback:
a part that starts with `[` and ends with `]` becomes a token segment with
`content = part.slice(1, -1).trim().toLowerCase()`; any other part becomes a
text segment.
-/
def classifyPart (i : Nat) (part : List Char) : Segment :=
  if startsWithBracket part && endsWithBracket part then
    { kind := SegKind.token
      value := ⟨part⟩
      content := ⟨lowerL (trimL ((part.drop 1).dropLast))⟩
      key := i }
  else
    { kind := SegKind.text, value := ⟨part⟩, content := ⟨part⟩, key := i }

/--
The token parser of `TokenInput.js` (the parse `useEffect`): split on the
token regex, classify each part, and drop parts whose raw text is empty
(`filter(token => token.value !== '')`).  An empty input yields no segments
(`if (value)` guard).
-/
def parseTokens (value : String) : List Segment :=
  if value = "" then []
  else
    ((((jsSplitTokenRegex value.data).map Prod.snd).enumFrom 0).map
        (fun p => classifyPart p.1 p.2)).filter
      (fun seg => seg.value ≠ "")

theorem classifyPart_value (i : Nat) (part : List Char) :
    (classifyPart i part).value = ⟨part⟩ := by
  unfold classifyPart
  split <;> rfl

theorem classifyPart_key (i : Nat) (part : List Char) :
    (classifyPart i part).key = i := by
  unfold classifyPart
  split <;> rfl

/-- Concatenation of the raw texts of the classified-and-filtered parts
equals the concatenation of the raw parts: classification preserves the raw
text and the filter only drops empty parts. -/
theorem concat_values_of_parts (ps : List (List Char)) (k : Nat) :
    ((((ps.enumFrom k).map (fun p => classifyPart p.1 p.2)).filter
        (fun seg => seg.value ≠ "")).map (fun seg => seg.value.data)).flatten = ps.flatten := by
  induction ps generalizing k with
  | nil => rfl
  | cons p ps ih =>
    have hval := classifyPart_value k p
    simp only [List.enumFrom_cons, List.map_cons, List.filter_cons, hval]
    by_cases hp : p = []
    · subst hp
      have hdec : (decide ((⟨[]⟩ : String) ≠ "")) = false := by
        simp [String.ext_iff]
      rw [hdec]
      simp only [Bool.false_eq_true, if_false]
      rw [ih (k + 1)]
      simp
    · have hdec : (decide ((⟨p⟩ : String) ≠ "")) = true := by
        simp only [decide_eq_true_eq, ne_eq, String.ext_iff]
        simpa using hp
      rw [hdec]
      simp only [if_true, List.map_cons, List.flatten_cons]
      rw [ih (k + 1), hval]

/-- Folding string append over a list of strings concatenates their data. -/
theorem foldr_append_data (l : List String) :
    ((l.foldr (fun a b => a ++ b) "").data) = (l.map String.data).flatten := by
  induction l with
  | nil => rfl
  | cons s l ih =>
    simp only [List.foldr_cons, List.map_cons, List.flatten_cons, ← ih]
    rfl

/--
Claim C1 (round-trip losslessness): for every input string, concatenating the
`value` field (the spec's `raw`) of all segments produced by the token
parser, in order, reproduces the original input string exactly.
-/
theorem parse_roundtrip (value : String) :
    (((parseTokens value).map Segment.value).foldr (fun a b => a ++ b) "") = value := by
  unfold parseTokens
  by_cases hv : value = ""
  · subst hv; rfl
  · rw [if_neg hv]
    apply String.ext
    rw [foldr_append_data, List.map_map]
    rw [show (String.data ∘ Segment.value) = (fun seg : Segment => seg.value.data) from rfl]
    rw [concat_values_of_parts ((jsSplitTokenRegex value.data).map Prod.snd) 0,
      jsSplitTokenRegex_join]

/--
Claim C5, counterexample: `"[Business Head] vs [OEM]"` does **not** parse into
5 segments — the parser drops the empty boundary parts of the split, leaving
3 segments.
-/
theorem parse_example_not_five_segments :
    (parseTokens "[Business Head] vs [OEM]").length ≠ 5 := by decide

/--
Claim C5, amended: `"[Business Head] vs [OEM]"` parses into 3 segments —
token("business head"), text(" vs "), token("oem") — with no empty segments,
and each token's content lower-cased and trimmed.  (The split itself produces
5 parts, but the two empty boundary parts are filtered out.)
-/
theorem parse_example_segments :
    parseTokens "[Business Head] vs [OEM]" =
      [{ kind := SegKind.token, value := "[Business Head]", content := "business head", key := 1 },
       { kind := SegKind.text, value := " vs ", content := " vs ", key := 2 },
       { kind := SegKind.token, value := "[OEM]", content := "oem", key := 3 }] ∧
    (∀ seg ∈ parseTokens "[Business Head] vs [OEM]", seg.value ≠ "") := by
  constructor
  · decide
  · decide

/--
The ordinal computation of `handleTokenClick` in `TokenInput.js`, for a
clicked token segment `tok` of the current segment list `tokens`:

* for a `[Name]` token (`token.content.toLowerCase() === 'name'`), the number
  of `name`-content token segments among the segments strictly before the
  clicked one (`tokens.slice(0, idx)` filtered), where `idx` is found by key
  (`tokens.findIndex(t => t.key === token.key)`);
* for any other token, its index among all token-kind segments
  (`tokens.filter(t => t.type === 'token').findIndex(t => t.key === token.key)`),
  `-1` when absent as for JavaScript `findIndex` (unreachable for a clicked
  token, whose key always occurs in the list).
-/
def handleTokenClickIndex (tokens : List Segment) (tok : Segment) : Int :=
  if lowerL tok.content.data = "name".data then
    ((((tokens.take (tokens.findIdx (fun t => t.key == tok.key))).filter
      (fun t => t.kind == SegKind.token && lowerL t.content.data == "name".data)).length : Nat) : Int)
  else
    match (tokens.filter (fun t => t.kind == SegKind.token)).findIdx?
        (fun t => t.key == tok.key) with
    | some j => (j : Int)
    | none => -1

/--
Claim C4, counterexample: in `"[OEM] and [Business Head] and [OEM]"`, the
clicked second `[OEM]` token (segment index 4) gets ordinal 2 — its index
among **all** token segments — while the count of same-literal tokens before
it is 1; the claimed same-literal ordinal computation only happens for
`[Name]` tokens.
-/
theorem click_ordinal_counterexample :
    ((parseTokens "[OEM] and [Business Head] and [OEM]").getD 4 default).kind = SegKind.token ∧
    handleTokenClickIndex (parseTokens "[OEM] and [Business Head] and [OEM]")
      ((parseTokens "[OEM] and [Business Head] and [OEM]").getD 4 default) = 2 ∧
    (((((parseTokens "[OEM] and [Business Head] and [OEM]").take 4).filter
      (fun t => t.kind == SegKind.token &&
        t.content == ((parseTokens "[OEM] and [Business Head] and [OEM]").getD 4 default).content)).length : Nat) : Int) = 1 ∧
    (2 : Int) ≠ 1 := by
  refine ⟨by decide, by decide, by decide, by decide⟩

/-- The parser assigns strictly increasing keys (the indices of the parts in
the split output, preserved by the filter). -/
theorem parse_keys_pairwise (value : String) :
    ((parseTokens value).map Segment.key).Pairwise (· < ·) := by
  unfold parseTokens
  by_cases hv : value = ""
  · simp [hv]
  · rw [if_neg hv]
    have hsub : ((((jsSplitTokenRegex value.data).map Prod.snd).enumFrom 0).map
        (fun p => classifyPart p.1 p.2)).filter (fun seg => seg.value ≠ "") |>.map Segment.key
        |>.Sublist (((((jsSplitTokenRegex value.data).map Prod.snd).enumFrom 0).map
          (fun p => classifyPart p.1 p.2)).map Segment.key) :=
      (List.filter_sublist _).map Segment.key
    apply List.Pairwise.sublist hsub
    rw [List.map_map]
    have hcomp : (Segment.key ∘ fun p : Nat × List Char => classifyPart p.1 p.2) =
        (fun p : Nat × List Char => p.1) := by
      funext p
      exact classifyPart_key p.1 p.2
    rw [hcomp]
    have henum : (((jsSplitTokenRegex value.data).map Prod.snd).enumFrom 0).map
        (fun p : Nat × List Char => p.1) =
        List.range ((jsSplitTokenRegex value.data).map Prod.snd).length := by
      have := List.enum_map_fst ((jsSplitTokenRegex value.data).map Prod.snd)
      exact this
    rw [henum]
    exact List.pairwise_lt_range _

/-- With pairwise-distinct keys, `findIndex` by key locates exactly the
position of the segment itself. -/
theorem findIdx_key_of_pairwise (l : List Segment)
    (hp : (l.map Segment.key).Pairwise (· ≠ ·)) (i : Nat) (hi : i < l.length) :
    l.findIdx (fun t => t.key == (l.get ⟨i, hi⟩).key) = i := by
  induction l generalizing i with
  | nil => cases hi
  | cons a t ih =>
    rw [List.map_cons, List.pairwise_cons] at hp
    obtain ⟨ha, ht⟩ := hp
    cases i with
    | zero =>
      simp [List.findIdx_cons]
    | succ i =>
      have hi2 : i < t.length := by simpa using hi
      have hget : (a :: t).get ⟨i + 1, hi⟩ = t.get ⟨i, hi2⟩ := rfl
      rw [hget, List.findIdx_cons]
      have hmem : (t.get ⟨i, hi2⟩).key ∈ t.map Segment.key :=
        List.mem_map_of_mem Segment.key (t.get_mem i hi2)
      have hne : (a.key == (t.get ⟨i, hi2⟩).key) = false := by
        simp only [beq_eq_false_iff_ne, ne_eq]
        exact ha _ hmem
      rw [hne]
      simp only [cond_false]
      rw [ih ht i hi2]

/-- With pairwise-distinct keys, `findIndex` by key over the token-filtered
list returns the number of token segments strictly before the segment. -/
theorem findIdx?_filtered_of_pairwise (l : List Segment)
    (hp : (l.map Segment.key).Pairwise (· ≠ ·)) (i : Nat) (hi : i < l.length)
    (htok : (l.get ⟨i, hi⟩).kind = SegKind.token) :
    ∀ start : Nat,
      (l.filter (fun t => t.kind == SegKind.token)).findIdx?
          (fun t => t.key == (l.get ⟨i, hi⟩).key) start =
        some (start + ((l.take i).filter (fun t => t.kind == SegKind.token)).length) := by
  induction l generalizing i with
  | nil => cases hi
  | cons a t ih =>
    rw [List.map_cons, List.pairwise_cons] at hp
    obtain ⟨ha, ht⟩ := hp
    intro start
    cases i with
    | zero =>
      have hget : (a :: t).get ⟨0, hi⟩ = a := rfl
      rw [hget] at htok ⊢
      have hak : (a.kind == SegKind.token) = true := by simp [htok]
      rw [List.filter_cons, hak]
      simp only [if_true, List.findIdx?_cons]
      have : (a.key == a.key) = true := by simp
      rw [this]
      simp
    | succ i =>
      have hi2 : i < t.length := by simpa using hi
      have hget : (a :: t).get ⟨i + 1, hi⟩ = t.get ⟨i, hi2⟩ := rfl
      rw [hget] at htok ⊢
      have hmem : (t.get ⟨i, hi2⟩).key ∈ t.map Segment.key :=
        List.mem_map_of_mem Segment.key (t.get_mem i hi2)
      have hne : (a.key == (t.get ⟨i, hi2⟩).key) = false := by
        simp only [beq_eq_false_iff_ne, ne_eq]
        exact ha _ hmem
      rw [List.filter_cons]
      by_cases hak : a.kind = SegKind.token
      · have : (a.kind == SegKind.token) = true := by simp [hak]
        rw [this]
        simp only [if_true, List.findIdx?_cons, hne]
        simp only [Bool.false_eq_true, if_false]
        rw [ih ht i hi2 htok (start + 1)]
        have htake : (a :: t).take (i + 1) = a :: t.take i := rfl
        rw [htake, List.filter_cons, this]
        simp only [if_true, List.length_cons]
        congr 1
        omega
      · have : (a.kind == SegKind.token) = false := by simp [hak]
        rw [this]
        simp only [Bool.false_eq_true, if_false]
        rw [ih ht i hi2 htok start]
        have htake : (a :: t).take (i + 1) = a :: t.take i := rfl
        rw [htake, List.filter_cons, this]
        simp

/--
Claim C4, amended: for every input string and every clicked token segment
(at position `i` of the parsed segment list), the ordinal passed upward by
the click handler equals

* the count of `name`-content token segments strictly before it, when the
  clicked token's content is `name` (same-literal counting as claimed), and
* its 0-based position among **all** token segments (the count of token
  segments of any literal strictly before it) otherwise — not the
  same-literal count.
-/
theorem click_ordinal_characterization (value : String) (i : Nat)
    (hi : i < (parseTokens value).length)
    (htok : ((parseTokens value).get ⟨i, hi⟩).kind = SegKind.token) :
    handleTokenClickIndex (parseTokens value) ((parseTokens value).get ⟨i, hi⟩) =
      if lowerL ((parseTokens value).get ⟨i, hi⟩).content.data = "name".data then
        (((((parseTokens value).take i).filter
          (fun t => t.kind == SegKind.token && lowerL t.content.data == "name".data)).length : Nat) : Int)
      else
        (((((parseTokens value).take i).filter
          (fun t => t.kind == SegKind.token)).length : Nat) : Int) := by
  have hp : ((parseTokens value).map Segment.key).Pairwise (· ≠ ·) :=
    (parse_keys_pairwise value).imp (fun h => Nat.ne_of_lt h)
  unfold handleTokenClickIndex
  by_cases hname : lowerL ((parseTokens value).get ⟨i, hi⟩).content.data = "name".data
  · rw [if_pos hname, if_pos hname]
    rw [findIdx_key_of_pairwise (parseTokens value) hp i hi]
  · rw [if_neg hname, if_neg hname]
    rw [findIdx?_filtered_of_pairwise (parseTokens value) hp i hi htok 0]
    simp

/--
Witness for the amended claim C4, at the input `"x [OEM] y [Name]"` and the
`[OEM]` token (segment position 1): the handler reports ordinal 0, the count
of token segments before it.
-/
theorem click_ordinal_characterization_witness :
    (1 < (parseTokens "x [OEM] y [Name]").length ∧
      ((parseTokens "x [OEM] y [Name]").get ⟨1, by decide⟩).kind = SegKind.token) ∧
    handleTokenClickIndex (parseTokens "x [OEM] y [Name]")
        ((parseTokens "x [OEM] y [Name]").get ⟨1, by decide⟩) =
      if lowerL ((parseTokens "x [OEM] y [Name]").get ⟨1, by decide⟩).content.data = "name".data then
        (((((parseTokens "x [OEM] y [Name]").take 1).filter
          (fun t => t.kind == SegKind.token && lowerL t.content.data == "name".data)).length : Nat) : Int)
      else
        (((((parseTokens "x [OEM] y [Name]").take 1).filter
          (fun t => t.kind == SegKind.token)).length : Nat) : Int) :=
  ⟨⟨by decide, by decide⟩,
    click_ordinal_characterization "x [OEM] y [Name]" 1 (by decide) (by decide)⟩

/-! ## The role resolver (`RoleBasedDropdown.js`) -/

/-- A JavaScript value as observed from the resolver: the source returns
strings except when an object-literal property read falls through to
`Object.prototype` (see `jsGetDirect`), in which case a non-string function
or object escapes. -/
inductive JSVal
  | str (s : String)
  | obj (tag : String)
deriving DecidableEq, Repr

/-- The `directRoleMapping` object literal, in insertion order (which
`Object.entries` preserves for these string keys). -/
def directRoleMapping : List (String × String) :=
  [ ("business head", "Business Head"),
    ("group business manager", "Group Business Manager"),
    ("channel champ", "Channel Champ"),
    ("group channel champ", "Group Channel Champ"),
    ("vertical account", "Vertical Account"),
    ("regional commercial business manager", "Regional Commercial Business Manager"),
    ("business manager", "Regional Commercial Business Manager"),
    ("year", "Year"),
    ("account", "Vertical Account"),
    ("vertical champ", "Vertical Champ"),
    ("oem", "OEM"),
    ("partner", "Partner"),
    ("end customer", "End Customer"),
    ("customer", "End Customer") ]

/-- The property names an object literal inherits from `Object.prototype`;
a read of any of them yields a truthy non-string function or object. -/
def objectPrototypeKeys : List String :=
  ["constructor", "toString", "toLocaleString", "valueOf", "hasOwnProperty",
   "isPrototypeOf", "propertyIsEnumerable", "__proto__", "__defineGetter__",
   "__defineSetter__", "__lookupGetter__", "__lookupSetter__"]

/-- `directRoleMapping[lowerPlaceholder]` with JavaScript property-lookup
semantics: own properties (the table entries, all truthy non-empty strings)
shadow the prototype; a miss continues into `Object.prototype`, whose
members are truthy non-string values. -/
def jsGetDirect (key : List Char) : Option JSVal :=
  match directRoleMapping.find? (fun kv => kv.1.data == key) with
  | some kv => some (JSVal.str kv.2)
  | none =>
    if objectPrototypeKeys.any (fun k => k.data == key) then
      some (JSVal.obj "Object.prototype member")
    else none

/-- The partial-match loop over `Object.entries(directRoleMapping)`: the
first table entry (in insertion order) whose key is a substring of the
placeholder (`lowerPlaceholder.includes(key)`). -/
def includesDirect (lp : List Char) : Option JSVal :=
  match directRoleMapping.find? (fun kv => containsSub lp kv.1.data) with
  | some kv => some (JSVal.str kv.2)
  | none => none

/-- JavaScript `\w`: ASCII letters, digits and underscore. -/
def isWordChar (c : Char) : Bool := c.isAlphanum || c == '_'

/-- Does `needle` occur at the head of `hay` with a word boundary right
after it?  (All needles used here begin and end with word characters, so
`\b` reduces to "adjacent character, if any, is not a word character".) -/
def wbHeadAt (needle hay : List Char) : Bool :=
  needle.isPrefixOf hay &&
    (match hay.drop needle.length with
     | [] => true
     | c :: _ => !isWordChar c)

/-- Scan of `/\bneedle\b/` over `hay`, tracking the previous character for
the left boundary. -/
def testWBFrom (needle : List Char) : Option Char → List Char → Bool
  | prev, [] =>
    wbHeadAt needle [] &&
      (match prev with
       | none => true
       | some c => !isWordChar c)
  | prev, c :: t =>
    (wbHeadAt needle (c :: t) &&
      (match prev with
       | none => true
       | some d => !isWordChar d)) ||
    testWBFrom needle (some c) t

def testWB (needle hay : List Char) : Bool := testWBFrom needle none hay

def testAnyWB (needles : List String) (hay : List Char) : Bool :=
  needles.any (fun n => testWB n.data hay)

/-- The `rolePatterns` priority list: each regex `/\bA\b|\bB\b/` is the list
of its word-bounded alternatives, paired with the role it yields. -/
def rolePatterns : List (List String × String) :=
  [ (["oem"], "OEM"),
    (["partner"], "Partner"),
    (["end customer", "customer"], "End Customer"),
    (["business head"], "Business Head"),
    (["group business manager"], "Group Business Manager"),
    (["group channel champ"], "Group Channel Champ"),
    (["channel champ"], "Channel Champ"),
    (["vertical champ"], "Vertical Champ"),
    (["regional commercial business manager", "business manager"],
      "Regional Commercial Business Manager"),
    (["vertical account", "account"], "Vertical Account") ]

/-- `pattern.test(recentWords) || pattern.test(textBeforeToken)` in priority
order; the first matching pattern wins. -/
def firstRolePattern (recent textBefore : List Char) : Option String :=
  match rolePatterns.find? (fun pr => testAnyWB pr.1 recent || testAnyWB pr.1 textBefore) with
  | some pr => some pr.2
  | none => none

/-- JavaScript line terminators, which `.` does not match. -/
def isLineTerm (c : Char) : Bool :=
  c == '\n' || c == '\r' || c == Char.ofNat 0x2028 || c == Char.ofNat 0x2029

/-- Matching of the regex tail `.*?P₁.*?P₂ ...` from the current position:
each literal part must occur after a gap of non-line-terminator characters,
with full backtracking.  Every call decreases `parts.length + hay.length`,
so `fuel` exceeding that sum suffices. -/
def seqGap : Nat → List (List Char) → List Char → Bool
  | _, [], _ => true
  | 0, _ :: _, _ => false
  | fuel + 1, p :: ps, hay =>
    (p.isPrefixOf hay && seqGap fuel ps (hay.drop p.length)) ||
    (match hay with
     | [] => false
     | c :: t => !isLineTerm c && seqGap fuel (p :: ps) t)

/-- Matching of an alternation-free `P₁.*?P₂.*? ...` pattern at any start
position of `hay` (regex `test` semantics). -/
def seqStart : Nat → List (List Char) → List Char → Bool
  | _, [], _ => true
  | 0, _ :: _, _ => false
  | fuel + 1, p :: ps, hay =>
    (p.isPrefixOf hay && seqGap fuel ps (hay.drop p.length)) ||
    (match hay with
     | [] => false
     | _ :: t => seqStart fuel (p :: ps) t)

def seqMatch (parts : List (List Char)) (hay : List Char) : Bool :=
  seqStart (parts.length + hay.length + 1) parts hay

/-- The `multiNamePatterns` list: each regex `A.*?B|B.*?A` is a list of
alternatives (each an ordered list of literal parts), paired with the two
roles `(roles[0], roles[1])`. -/
def multiNamePatterns : List (List (List String) × (String × String)) :=
  [ ([["business head", "with", "oem"], ["oem", "with", "business head"]],
      ("Business Head", "OEM")),
    ([["business manager", "oem"], ["oem", "business manager"]],
      ("Regional Commercial Business Manager", "OEM")),
    ([["group channel champ", "partner"], ["partner", "group channel champ"]],
      ("Group Channel Champ", "Partner")),
    ([["channel champ", "partner"], ["partner", "channel champ"]],
      ("Channel Champ", "Partner")),
    ([["vertical champ", "customer"], ["customer", "vertical champ"]],
      ("Vertical Champ", "End Customer")) ]

def testMulti (alts : List (List String)) (hay : List Char) : Bool :=
  alts.any (fun parts => seqMatch (parts.map String.data) hay)

def firstMultiName (fullC : List Char) : Option (String × String) :=
  match multiNamePatterns.find? (fun mp => testMulti mp.1 fullC) with
  | some mp => some mp.2
  | none => none

/-- The literal matched by `/\[name\]/gi`, in lower case. -/
def nameTokenLit : List Char := "[name]".data

/-- Case-insensitive occurrence of `needle` (given lower-cased) at the head
of `hay`. -/
def ciHeadAt (needle hay : List Char) : Bool :=
  lowerL (hay.take needle.length) == needle

/-- The `while ((match = nameTokenRegex.exec(fullInputContext)))` loop of
`getRoleFromPlaceholder`: the character offset of the `n`-th (0-based)
case-insensitive occurrence of `[name]`; after a match, `lastIndex` advances
past it.  Every iteration consumes at least one character, so any
`fuel > hay.length` suffices (the termination theorem for claim C6). -/
def findNthNameF : Nat → List Char → Nat → Nat → Option Nat
  | 0, _, _, _ => none
  | fuel + 1, hay, n, pos =>
    match hay with
    | [] => none
    | c :: t =>
      if ciHeadAt nameTokenLit (c :: t) then
        if n = 0 then some pos
        else findNthNameF fuel ((c :: t).drop nameTokenLit.length) (n - 1)
          (pos + nameTokenLit.length)
      else findNthNameF fuel t n (pos + 1)

/-- `(textBeforeTarget.match(/\[name\]/gi) || []).length`: the number of
non-overlapping case-insensitive `[name]` occurrences. -/
def countNameF : Nat → List Char → Nat
  | 0, _ => 0
  | fuel + 1, hay =>
    match hay with
    | [] => 0
    | c :: t =>
      if ciHeadAt nameTokenLit (c :: t) then
        countNameF fuel ((c :: t).drop nameTokenLit.length) + 1
      else countNameF fuel t

/-- `textBefore.split(/\s+/).filter(word => word.length > 0)`: the maximal
non-whitespace runs.  `fuel = cs.length` suffices. -/
def splitWsF : Nat → List Char → List (List Char)
  | 0, _ => []
  | fuel + 1, cs =>
    match cs with
    | [] => []
    | c :: t =>
      if isWs c then splitWsF fuel t
      else (c :: t.takeWhile (fun d => !isWs d)) :: splitWsF fuel (t.dropWhile (fun d => !isWs d))

/-- `words.slice(-5)`. -/
def lastN (n : Nat) (l : List (List Char)) : List (List Char) :=
  l.drop (l.length - n)

/-- `words.join(' ')`. -/
def joinSpace : List (List Char) → List Char
  | [] => []
  | [w] => w
  | w :: ws => w ++ ' ' :: joinSpace ws

/-- `wordsBeforeToken.slice(-5).join(' ')`: the recent 5-word window. -/
def recentWindow (textBefore : List Char) : List Char :=
  joinSpace (lastN 5 (splitWsF textBefore.length textBefore))

/-- The `keywordToRole` fallback list (whole-context substring matching). -/
def keywordToRole : List (List String × String) :=
  [ (["business manager"], "Regional Commercial Business Manager"),
    (["group channel champ"], "Group Channel Champ"),
    (["channel champ"], "Channel Champ"),
    (["vertical champ"], "Vertical Champ"),
    (["business head"], "Business Head"),
    (["group business manager"], "Group Business Manager"),
    (["oem"], "OEM"),
    (["partner"], "Partner"),
    (["customer", "end customer"], "End Customer"),
    (["vertical account"], "Vertical Account") ]

/-- `keywords.some(keyword => context.includes(keyword))` over the fallback
list; the first matching entry wins. -/
def keywordFallback (ctxL : List Char) : Option String :=
  match keywordToRole.find? (fun kr => kr.1.any (fun k => containsSub ctxL k.data)) with
  | some kr => some kr.2
  | none => none

/-- The position-based analysis for one located `[Name]` occurrence:
single-role patterns on the 5-word recent window and the full (lower-cased)
preceding text, then two-role relationship patterns on the whole lower-cased
context, choosing the first or second role by the number of `[name]`
occurrences strictly before the target. -/
def nameAtPos (fuel : Nat) (ctx : List Char) (pos : Nat) : Option String :=
  let textBefore := lowerL (ctx.take pos)
  match firstRolePattern (recentWindow textBefore) textBefore with
  | some r => some r
  | none =>
    match firstMultiName (lowerL ctx) with
    | some rr =>
      if countNameF fuel (ctx.take pos) = 0 then some rr.1 else some rr.2
    | none => none

/-- The `[Name]` branch of `getRoleFromPlaceholder`: locate the
`tokenIndex`-th `[name]` occurrence and analyse its context; when nothing
position-based applies, fall back to whole-context keywords, then to
`'Business Head'`. -/
def nameResolveFuel (fuel : Nat) (ctx : List Char) (tokenIndex : Int) : String :=
  let posStep : Option String :=
    if 0 ≤ tokenIndex then
      match findNthNameF fuel ctx tokenIndex.toNat 0 with
      | some pos => nameAtPos fuel ctx pos
      | none => none
    else none
  match posStep with
  | some r => r
  | none =>
    match keywordFallback (lowerL ctx) with
    | some r => r
    | none => "Business Head"

/-- `getRoleFromPlaceholder`, with the scan fuel explicit.  The direct and
partial mappings are skipped exactly when the trimmed lower-cased
placeholder is `name`; any other unmatched placeholder defaults to
`'Business Head'`. -/
def getRoleFuel (fuel : Nat) (placeholder ctx : List Char) (tokenIndex : Int) : JSVal :=
  let lp := trimL (lowerL placeholder)
  match (if lp = "name".data then none else jsGetDirect lp) with
  | some v => v
  | none =>
    match (if lp = "name".data then none else includesDirect lp) with
    | some v => v
    | none =>
      if lp = "name".data then JSVal.str (nameResolveFuel fuel ctx tokenIndex)
      else JSVal.str "Business Head"

/-- `getRoleFromPlaceholder(placeholder, tokenIndex)` of
`RoleBasedDropdown.js`; the full input context is the component's
`fullInputContext` prop. -/
def getRoleFromPlaceholder (placeholder fullInputContext : String)
    (tokenIndex : Int) : JSVal :=
  getRoleFuel (fullInputContext.data.length + 1) placeholder.data
    fullInputContext.data tokenIndex

/-- The `roleData` catalog of `RoleBasedDropdown.js`. -/
def roleData : List (String × List String) :=
  [ ("Business Head",
     ["Brijesh Shrivastava", "Sunil Kumar Pillai", "Sushant Ranshur"]),
    ("Group Business Manager",
     ["Manoranjan Rana", "Amol Bharat Dalal", "Ankit Pandey",
      "Dipanjan Ghosh", "Kanchan Ganeshrane", "Mihir Ghosh",
      "Mohamed Riyaz", "Mukundan Gs", "Saurabh Kumar",
      "Rupa Sharma", "Nagendra Bharadwaj"]),
    ("Channel Champ",
     ["Aayush Kaul", "Anu Johnson", "Chaitanya Deshmukh",
      "Adeel Ahmed", "Mohit Chugh", "Gaurav Upadhyay",
      "Himanshu Sharma", "Lalit S Sudrik"]),
    ("Group Channel Champ",
     ["Jitender Sharma", "Lalit S Sudrik",
      "Sathyanarayna H S", "Calvin Samuel"]),
    ("Vertical Account",
     ["BFSI", "Enterprises", "Government", "PSU-Gov"]),
    ("Vertical Champ",
     ["Aarun Sudhir", "Abinash Sahoo", "Adarsh Priyatam",
      "Ajay Vasoya", "Akash Singhal", "Amit Jain",
      "Ankit Gupta", "Arpit Bharti", "Atul Sharma"]),
    ("Regional Commercial Business Manager",
     ["Ankit Pandey", "Animesh Saraswat", "Aysha Nathiha A",
      "Amol Bharat Dalal", "Jalindra Chavan", "Dipanjan Ghosh",
      "Jatin Dev", "Manoranjan Rana", "Mohamed Riyaz",
      "Mihir Ghosh", "Kanchan Ganeshrane", "Mohit Bohra",
      "Rakesh Kumar Jena", "Mukundan Gs", "Nagendra Bharadwaj",
      "Sorabh Saraswat", "Rupa Sharma", "Umesh K. Muralidhar"]),
    ("Year",
     ["2022-23", "2023-24", "2024-25", "2025-26", "2026-27",
      "2027-28", "2028-29", "2029-30", "2030-31", "2031-32"]),
    ("OEM",
     ["SENTINELONE",
      "1KOSMOS", "A10", "AKAMAI", "ALGOSEC", "Alcatel",
      "ANOMALI", "APPNOMIC", "ARCON", "ARCSERVE", "ARISTA",
      "Array", "BLACKBERRY", "CHECKPOINT", "CLOUDFLARE", "CLOUDERA",
      "CLOUDSEK", "COHESITY", "CONFLUENT", "CYBERARK", "DELINEA",
      "DYNATRACE", "EnterpriseDB", "ENTRUST", "EXINDA", "FORCEPOINT",
      "FORTRA", "GCP CLOUD", "Github", "GOOGLE SECOPS", "GRIDGAIN",
      "GURUCUL SOLUTIONS", "HITACHI", "INNSPARK", "Instasafe", "KEYSIGHT",
      "LENOVO", "MASTERCARD", "Morphisec", "NETSCOUT", "NETSKOPE",
      "NUTANIX", "OPENTEXT", "PROGIST", "QUANTUM", "RSA",
      "RUBRIK", "Sapphire", "SOLACE", "SPLUNK", "SOTI",
      "STRATUS", "SUSE", "TENABLE", "THALES", "VANTAGEO",
      "WebWerks", "YUBICO"]),
    ("Partner",
     ["Techjockey Infotech Pvt Ltd", "Riskberg Consulting Pvt Ltd", "Anantya Infratech",
      "RAH Infotech Pvt Ltd", "Sify Technologies Ltd", "Tecmee Technologies Pvt Ltd",
      "Integre Solutions Pvt Ltd", "Golden Bright Star Pvt Ltd", "Infosys Ltd"]),
    ("End Customer",
     ["Infosys", "Tata Consultancy", "Wipro", "HCL Technologies",
      "Cognizant", "Accenture", "Capgemini", "IBM India"]),
    ("Name",
     ["Brijesh Shrivastava", "Sunil Kumar Pillai", "Sushant Ranshur",
      "Manoranjan Rana", "Amol Bharat Dalal", "Ankit Pandey",
      "Dipanjan Ghosh", "Kanchan Ganeshrane", "Mihir Ghosh",
      "Mohamed Riyaz", "Mukundan Gs", "Saurabh Kumar",
      "Rupa Sharma", "Nagendra Bharadwaj",
      "Aayush Kaul", "Anu Johnson", "Chaitanya Deshmukh",
      "Adeel Ahmed", "Mohit Chugh", "Gaurav Upadhyay",
      "Himanshu Sharma", "Lalit S Sudrik",
      "Sathyanarayna H S", "Calvin Samuel",
      "Aarun Sudhir", "Abinash Sahoo", "Adarsh Priyatam",
      "Ajay Vasoya", "Akash Singhal", "Amit Jain",
      "Ankit Gupta", "Arpit Bharti", "Atul Sharma",
      "Animesh Saraswat", "Aysha Nathiha A", "Jalindra Chavan",
      "Jatin Dev", "Mohit Bohra", "Rakesh Kumar Jena",
      "Sorabh Saraswat", "Umesh K. Muralidhar"]) ]

/-- The eleven role names the spec's closed set lists (the resolver never
returns the extra `Name` catalog key). -/
def roleNames : List String :=
  ["Business Head", "Group Business Manager", "Channel Champ",
   "Group Channel Champ", "Vertical Account", "Vertical Champ",
   "Regional Commercial Business Manager", "Year", "OEM", "Partner",
   "End Customer"]

/-- `roleData[actualRole] || []`, the candidate-list lookup.  For a string
role name, a plain property hit returns its list and a genuine miss falls
back to `[]`; a hit on an inherited `Object.prototype` member would yield a
non-array (marked `none`; no role name the resolver can return collides with
one).  When the resolver leaked a non-string object, the computed property
key is its string coercion, which is not in the catalog, so the lookup is
`undefined` and `|| []` applies. -/
def itemsFor : JSVal → Option (List String)
  | JSVal.str r =>
    match roleData.find? (fun kv => kv.1 == r) with
    | some kv => some kv.2
    | none =>
      if objectPrototypeKeys.any (fun k => k == r) then none
      else some []
  | JSVal.obj _ => some []

/--
Claim C2: per-occurrence `[Name]` disambiguation.  For
`"Compare [Business Head] [Name] with [OEM] [Name]"`, resolving the first
`[Name]` (ordinal 0) yields Business Head and the second (ordinal 1) yields
OEM — identical literal content, different resolved roles.
-/
theorem name_disambiguation_per_occurrence :
    getRoleFromPlaceholder "name" "Compare [Business Head] [Name] with [OEM] [Name]" 0 =
      JSVal.str "Business Head" ∧
    getRoleFromPlaceholder "name" "Compare [Business Head] [Name] with [OEM] [Name]" 1 =
      JSVal.str "OEM" := by
  constructor
  · decide
  · decide

/--
Claim C9: context-independence of the direct mapping:
`resolve("oem", t, i) = "OEM"` for every context and ordinal; in general,
for every placeholder whose trimmed lower-cased content is not `name`, the
result does not depend on the context or the ordinal index at all (the
`[Name]` branch is the only context-sensitive one).
-/
theorem direct_mapping_context_independent :
    (∀ (t : String) (i : Int),
      getRoleFromPlaceholder "oem" t i = JSVal.str "OEM") ∧
    (∀ (p t t2 : String) (i i2 : Int),
      trimL (lowerL p.data) ≠ "name".data →
      getRoleFromPlaceholder p t i = getRoleFromPlaceholder p t2 i2) := by
  constructor
  · intro t i
    rfl
  · intro p t t2 i i2 h
    simp only [getRoleFromPlaceholder, getRoleFuel, if_neg h]

/-- Witness for claim C9's generalization, at a concrete non-`name`
placeholder, two different contexts and two different ordinals. -/
theorem direct_mapping_context_independent_witness :
    getRoleFromPlaceholder "partner" "ctx one" 0 =
      getRoleFromPlaceholder "partner" "another ctx" 5 :=
  direct_mapping_context_independent.2 "partner" "ctx one" "another ctx" 0 5 (by decide)

theorem findNthNameF_stable : ∀ (f g : Nat) (hay : List Char) (n pos : Nat),
    hay.length < f → hay.length < g →
    findNthNameF f hay n pos = findNthNameF g hay n pos := by
  intro f
  induction f with
  | zero =>
    intro g hay n pos hf _
    omega
  | succ f ih =>
    intro g hay n pos hf hg
    cases g with
    | zero => omega
    | succ g =>
      cases hay with
      | nil => rfl
      | cons c t =>
        simp only [findNthNameF]
        have h6 : nameTokenLit.length = 6 := rfl
        by_cases hci : ciHeadAt nameTokenLit (c :: t) = true
        · rw [if_pos hci, if_pos hci]
          by_cases hn : n = 0
          · rw [if_pos hn, if_pos hn]
          · rw [if_neg hn, if_neg hn]
            apply ih
            · rw [List.length_drop, h6]
              simp only [List.length_cons] at hf ⊢
              omega
            · rw [List.length_drop, h6]
              simp only [List.length_cons] at hg ⊢
              omega
        · rw [if_neg hci, if_neg hci]
          apply ih
          · simp only [List.length_cons] at hf
            omega
          · simp only [List.length_cons] at hg
            omega

theorem countNameF_stable : ∀ (f g : Nat) (hay : List Char),
    hay.length < f → hay.length < g →
    countNameF f hay = countNameF g hay := by
  intro f
  induction f with
  | zero =>
    intro g hay hf _
    omega
  | succ f ih =>
    intro g hay hf hg
    cases g with
    | zero => omega
    | succ g =>
      cases hay with
      | nil => rfl
      | cons c t =>
        simp only [countNameF]
        have h6 : nameTokenLit.length = 6 := rfl
        by_cases hci : ciHeadAt nameTokenLit (c :: t) = true
        · rw [if_pos hci, if_pos hci]
          congr 1
          apply ih
          · rw [List.length_drop, h6]
            simp only [List.length_cons] at hf ⊢
            omega
          · rw [List.length_drop, h6]
            simp only [List.length_cons] at hg ⊢
            omega
        · rw [if_neg hci, if_neg hci]
          apply ih
          · simp only [List.length_cons] at hf
            omega
          · simp only [List.length_cons] at hg
            omega

theorem nameAtPos_stable (f g : Nat) (ctx : List Char) (pos : Nat)
    (hf : ctx.length < f) (hg : ctx.length < g) :
    nameAtPos f ctx pos = nameAtPos g ctx pos := by
  have htk : (ctx.take pos).length ≤ ctx.length := by
    rw [List.length_take]
    exact min_le_right _ _
  have hc : countNameF f (ctx.take pos) = countNameF g (ctx.take pos) :=
    countNameF_stable f g (ctx.take pos) (by omega) (by omega)
  simp only [nameAtPos, hc]

theorem nameResolveFuel_stable (f g : Nat) (ctx : List Char) (i : Int)
    (hf : ctx.length < f) (hg : ctx.length < g) :
    nameResolveFuel f ctx i = nameResolveFuel g ctx i := by
  simp only [nameResolveFuel]
  rw [findNthNameF_stable f g ctx i.toNat 0 hf hg]
  by_cases hi : 0 ≤ i
  · rw [if_pos hi, if_pos hi]
    cases h : findNthNameF g ctx i.toNat 0 with
    | none => rfl
    | some pos =>
      simp only
      rw [nameAtPos_stable f g ctx pos hf hg]
  · rw [if_neg hi, if_neg hi]

/--
Claim C6 (totality of `resolve`): the inner `/\[name\]/gi` scanning loop
(and the occurrence-counting rescan) terminates within `|fullText|`
iterations for any input — with any fuel beyond that bound the result is
unchanged and equals the resolver's value; the resolver itself is a total
pure function of its three arguments (a Lean function of exactly those
arguments), defined for every placeholder, every full text (with or without
`[name]` occurrences or unterminated brackets) and every integer ordinal.
-/
theorem resolve_total (p t : String) (i : Int) (fuel : Nat)
    (h : t.data.length < fuel) :
    getRoleFuel fuel p.data t.data i = getRoleFromPlaceholder p t i := by
  simp only [getRoleFromPlaceholder, getRoleFuel]
  rw [nameResolveFuel_stable fuel (t.data.length + 1) t.data i h (by omega)]

/-- Witness for claim C6 at a concrete input and an arbitrary larger fuel. -/
theorem resolve_total_witness :
    getRoleFuel 99 "name".data "see [Name] oem".data 0 =
      getRoleFromPlaceholder "name" "see [Name] oem" 0 :=
  resolve_total "name" "see [Name] oem" 0 99 (by decide)

theorem firstRolePattern_mem {recent textBefore : List Char} {r : String}
    (h : firstRolePattern recent textBefore = some r) : r ∈ roleNames := by
  unfold firstRolePattern at h
  cases hf : rolePatterns.find?
      (fun pr => testAnyWB pr.1 recent || testAnyWB pr.1 textBefore) with
  | some pr =>
    rw [hf] at h
    cases h
    have hmem := List.mem_of_find?_eq_some hf
    have hall : ∀ pr2 ∈ rolePatterns, pr2.2 ∈ roleNames := by decide
    exact hall pr hmem
  | none => rw [hf] at h; cases h

theorem firstMultiName_mem {fullC : List Char} {rr : String × String}
    (h : firstMultiName fullC = some rr) : rr.1 ∈ roleNames ∧ rr.2 ∈ roleNames := by
  unfold firstMultiName at h
  cases hf : multiNamePatterns.find? (fun mp => testMulti mp.1 fullC) with
  | some mp =>
    rw [hf] at h
    cases h
    have hmem := List.mem_of_find?_eq_some hf
    have hall : ∀ mp2 ∈ multiNamePatterns, mp2.2.1 ∈ roleNames ∧ mp2.2.2 ∈ roleNames := by
      decide
    exact hall mp hmem
  | none => rw [hf] at h; cases h

theorem keywordFallback_mem {ctxL : List Char} {r : String}
    (h : keywordFallback ctxL = some r) : r ∈ roleNames := by
  unfold keywordFallback at h
  cases hf : keywordToRole.find?
      (fun kr => kr.1.any (fun k => containsSub ctxL k.data)) with
  | some kr =>
    rw [hf] at h
    cases h
    have hmem := List.mem_of_find?_eq_some hf
    have hall : ∀ kr2 ∈ keywordToRole, kr2.2 ∈ roleNames := by decide
    exact hall kr hmem
  | none => rw [hf] at h; cases h

theorem nameAtPos_mem {fuel : Nat} {ctx : List Char} {pos : Nat} {r : String}
    (h : nameAtPos fuel ctx pos = some r) : r ∈ roleNames := by
  simp only [nameAtPos] at h
  cases hf : firstRolePattern (recentWindow (lowerL (ctx.take pos)))
      (lowerL (ctx.take pos)) with
  | some r2 =>
    rw [hf] at h
    cases h
    exact firstRolePattern_mem hf
  | none =>
    rw [hf] at h
    cases hm : firstMultiName (lowerL ctx) with
    | some rr =>
      rw [hm] at h
      dsimp only at h
      have hmem := firstMultiName_mem hm
      by_cases hz : countNameF fuel (ctx.take pos) = 0
      · rw [if_pos hz] at h
        cases h
        exact hmem.1
      · rw [if_neg hz] at h
        cases h
        exact hmem.2
    | none => rw [hm] at h; cases h

theorem nameResolveFuel_mem (fuel : Nat) (ctx : List Char) (i : Int) :
    nameResolveFuel fuel ctx i ∈ roleNames := by
  simp only [nameResolveFuel]
  by_cases hi : 0 ≤ i
  · rw [if_pos hi]
    cases hn : findNthNameF fuel ctx i.toNat 0 with
    | some pos =>
      simp only
      cases ha : nameAtPos fuel ctx pos with
      | some r =>
        simp only
        exact nameAtPos_mem ha
      | none =>
        simp only
        cases hk : keywordFallback (lowerL ctx) with
        | some r =>
          simp only
          exact keywordFallback_mem hk
        | none => simp only; decide
    | none =>
      simp only
      cases hk : keywordFallback (lowerL ctx) with
      | some r =>
        simp only
        exact keywordFallback_mem hk
      | none => simp only; decide
  · rw [if_neg hi]
    simp only
    cases hk : keywordFallback (lowerL ctx) with
    | some r =>
      simp only
      exact keywordFallback_mem hk
    | none => simp only; decide

/--
Claim C10, counterexample: the implicit claim that the resolver's result is
always one of the eleven catalog keys is false — the placeholder
`constructor` (reachable from the token `[Constructor]`) misses every own
property of `directRoleMapping` but hits the inherited truthy
`Object.prototype.constructor`, so the resolver returns a non-string object;
the catalog lookup then coerces it to an absent string key and the `|| []`
branch **is** taken, yielding the empty list.
-/
theorem resolver_prototype_leak :
    getRoleFromPlaceholder "constructor" "any text" 0 =
      JSVal.obj "Object.prototype member" ∧
    (roleNames.all (fun r =>
      !(decide (JSVal.str r = getRoleFromPlaceholder "constructor" "any text" 0)))) = true ∧
    itemsFor (getRoleFromPlaceholder "constructor" "any text" 0) = some [] := by
  refine ⟨by decide, by decide, by decide⟩

/--
Claim C10, amended: for every placeholder whose trimmed lower-cased content
is not one of the `Object.prototype` property names (`constructor`,
`__proto__`, ...), and for every full text and ordinal index, the resolver
returns a string that is one of the eleven fixed role names, and the
candidate-list lookup on it is defined and yields a non-empty list (the
`|| []` branch is then unreachable).  For the two reachable prototype names
the resolver instead leaks a non-string object (see the counterexample).
-/
theorem resolver_output_in_catalog (p t : String) (i : Int)
    (hproto : ∀ k ∈ objectPrototypeKeys, trimL (lowerL p.data) ≠ k.data) :
    ∃ r, getRoleFromPlaceholder p t i = JSVal.str r ∧ r ∈ roleNames ∧
      ∃ l, itemsFor (JSVal.str r) = some l ∧ l ≠ [] := by
  have hitems : ∀ r ∈ roleNames, ∃ l, itemsFor (JSVal.str r) = some l ∧ l ≠ [] := by
    decide
  suffices hmain : ∃ r, getRoleFromPlaceholder p t i = JSVal.str r ∧ r ∈ roleNames by
    obtain ⟨r, hr, hmem⟩ := hmain
    exact ⟨r, hr, hmem, hitems r hmem⟩
  simp only [getRoleFromPlaceholder, getRoleFuel]
  by_cases hname : trimL (lowerL p.data) = "name".data
  · rw [if_pos hname, if_pos hname, if_pos hname]
    exact ⟨_, rfl, nameResolveFuel_mem _ _ _⟩
  · rw [if_neg hname, if_neg hname, if_neg hname]
    cases hd : jsGetDirect (trimL (lowerL p.data)) with
    | some v =>
      cases v with
      | str r =>
        refine ⟨r, rfl, ?_⟩
        unfold jsGetDirect at hd
        cases hf : directRoleMapping.find?
            (fun kv => kv.1.data == trimL (lowerL p.data)) with
        | some kv =>
          rw [hf] at hd
          cases hd
          have hmem := List.mem_of_find?_eq_some hf
          have hall : ∀ kv2 ∈ directRoleMapping, kv2.2 ∈ roleNames := by decide
          exact hall kv hmem
        | none =>
          rw [hf] at hd
          by_cases hpk : objectPrototypeKeys.any
              (fun k => k.data == trimL (lowerL p.data)) = true
          · rw [if_pos hpk] at hd
            cases hd
          · rw [if_neg hpk] at hd
            cases hd
      | obj tag =>
        exfalso
        unfold jsGetDirect at hd
        cases hf : directRoleMapping.find?
            (fun kv => kv.1.data == trimL (lowerL p.data)) with
        | some kv => rw [hf] at hd; cases hd
        | none =>
          rw [hf] at hd
          by_cases hpk : objectPrototypeKeys.any
              (fun k => k.data == trimL (lowerL p.data)) = true
          · obtain ⟨k, hkmem, hkeq⟩ := List.any_eq_true.mp hpk
            have : trimL (lowerL p.data) = k.data := (eq_of_beq hkeq).symm
            exact hproto k hkmem this
          · rw [if_neg hpk] at hd
            cases hd
    | none =>
      cases hi : includesDirect (trimL (lowerL p.data)) with
      | some v =>
        cases v with
        | str r =>
          refine ⟨r, rfl, ?_⟩
          unfold includesDirect at hi
          cases hf : directRoleMapping.find?
              (fun kv => containsSub (trimL (lowerL p.data)) kv.1.data) with
          | some kv =>
            rw [hf] at hi
            cases hi
            have hmem := List.mem_of_find?_eq_some hf
            have hall : ∀ kv2 ∈ directRoleMapping, kv2.2 ∈ roleNames := by decide
            exact hall kv hmem
          | none => rw [hf] at hi; cases hi
        | obj tag =>
          exfalso
          unfold includesDirect at hi
          cases hf : directRoleMapping.find?
              (fun kv => containsSub (trimL (lowerL p.data)) kv.1.data) with
          | some kv => rw [hf] at hi; cases hi
          | none => rw [hf] at hi; cases hi
      | none =>
        exact ⟨"Business Head", rfl, by decide⟩

/-- Witness for the amended claim C10 at a concrete non-prototype
placeholder. -/
theorem resolver_output_in_catalog_witness :
    ∃ r, getRoleFromPlaceholder "partner" "some text" 3 = JSVal.str r ∧
      r ∈ roleNames ∧ ∃ l, itemsFor (JSVal.str r) = some l ∧ l ≠ [] :=
  resolver_output_in_catalog "partner" "some text" 3 (by decide)

/-! ## The selection applier (`handleDropdownSelect` in the chat container) -/

/-- The metacharacter class of
`activeDropdown.replace(/[.*+?^${}()|[\]\\]/g, '\\$&')` (the braces are
`Char.ofNat 123` and `Char.ofNat 125`). -/
def isRegexMeta (c : Char) : Bool :=
  c == '.' || c == '*' || c == '+' || c == '?' || c == '^' || c == '$' ||
  c == Char.ofNat 123 || c == Char.ofNat 125 || c == '(' || c == ')' ||
  c == '|' || c == '[' || c == ']' || c == '\\'

/-- `activeDropdown.replace(/[.*+?^${}()|[\]\\]/g, '\\$&')`: a backslash is
inserted before every metacharacter. -/
def escapeRegex : List Char → List Char
  | [] => []
  | c :: t => if isRegexMeta c then '\\' :: c :: escapeRegex t else c :: escapeRegex t

/-- Interpretation of a regex source string as a plain literal matcher:
`some lits` iff the pattern is a sequence of literal atoms (escaped
metacharacters, or characters that are not metacharacters) denoting exactly
the character sequence `lits`; `none` when the pattern contains an unescaped
metacharacter (compiling could then throw — e.g. on an unbalanced `(` — or
match text other than the literal) or ends in a dangling backslash.  Escapes
of non-metacharacters (potential character classes such as `\d`) are
conservatively not treated as literals either. -/
def compileLiteralPattern : List Char → Option (List Char)
  | [] => some []
  | c :: rest =>
    if c = '\\' then
      match rest with
      | [] => none
      | d :: rest2 =>
        if isRegexMeta d then (compileLiteralPattern rest2).map (fun l => d :: l)
        else none
    else if isRegexMeta c then none
    else (compileLiteralPattern rest).map (fun l => c :: l)

/-- Case-insensitive match of `needle` at the head of `hay`. -/
def ciMatchAt (needle hay : List Char) : Bool :=
  lowerL (hay.take needle.length) == lowerL needle

/-- `input.replace(pattern, value)` for a compiled literal `lits` with the
`i` flag and no `g` flag: replace the first (left-most) case-insensitive
occurrence and leave everything else unchanged; with no occurrence the
input is returned unchanged.  (The catalog values contain no `$`, so the
`$`-escape processing JavaScript applies to replacement strings is the
identity here.) -/
def replaceFirstCI (lits value : List Char) : List Char → List Char
  | [] => []
  | c :: t =>
    if ciMatchAt lits (c :: t) then value ++ (c :: t).drop lits.length
    else c :: replaceFirstCI lits value t

/-- The fallback replacement of `handleDropdownSelect`:
`input.replace(new RegExp('\\[' + escaped + '\\]', 'i'), value)`.  The
pattern always compiles to the literal `[activeDropdown]` (the
escaping-safety theorem); the `none` case is unreachable and conservatively
leaves the input unchanged. -/
def fallbackReplace (input activeDropdown value : List Char) : List Char :=
  match compileLiteralPattern
      (('\\' :: '[' :: escapeRegex activeDropdown) ++ ['\\', ']']) with
  | some lits => replaceFirstCI lits value input
  | none => input

/-- `tokens.findIndex((token, index) => token.toLowerCase() ===
tokenToReplace.toLowerCase() && index >= currentTokenIndex)`, as an
`Option Nat` (JavaScript returns `-1` for `none`). -/
def findTokenFromIndex (ttr : List Char) (cti : Int) : Nat → List (List Char) → Option Nat
  | _, [] => none
  | idx, tok :: rest =>
    if lowerL tok = lowerL ttr ∧ cti ≤ (idx : Int) then some idx
    else findTokenFromIndex ttr cti (idx + 1) rest

/-- The single-substitution global replace
`newInput.replace(/\[[^\]]+\]/g, cb)` guarded by the `replacementCount`
flag: a match piece equal (case-insensitively) to the target is replaced
only if no replacement has happened yet; every other piece is emitted
unchanged. -/
def replaceScan (ttr value : List Char) : Bool → List (Bool × List Char) → List Char
  | _, [] => []
  | replaced, (isTok, p) :: rest =>
    if isTok && !replaced && (lowerL p == lowerL ttr) then
      value ++ replaceScan ttr value true rest
    else p ++ replaceScan ttr value replaced rest

/--
`handleDropdownSelect(value)` of the chat container, as a function of the
current input string, the active dropdown role text, the selected value and
the stored token index; returns the new input string.  An empty
`activeDropdown` is falsy and leaves the input unchanged (the component
state updates are not part of the string semantics).
-/
def handleDropdownSelect (input activeDropdown value : String)
    (currentTokenIndex : Int) : String :=
  if activeDropdown = "" then input
  else
    let pieces := jsSplitTokenRegex input.data
    let tokens := (pieces.filter (fun pc => pc.1)).map Prod.snd
    let ttr := '[' :: activeDropdown.data ++ [']']
    if 0 ≤ currentTokenIndex ∧ currentTokenIndex < (tokens.length : Int) then
      match findTokenFromIndex ttr currentTokenIndex 0 tokens with
      | some _ => ⟨replaceScan ttr value.data false pieces⟩
      | none => ⟨fallbackReplace input.data activeDropdown.data value.data⟩
    else ⟨fallbackReplace input.data activeDropdown.data value.data⟩

theorem compileLiteralPattern_escape (cs suffix : List Char) :
    compileLiteralPattern (escapeRegex cs ++ suffix) =
      (compileLiteralPattern suffix).map (fun l => cs ++ l) := by
  induction cs with
  | nil =>
    simp only [escapeRegex, List.nil_append]
    cases compileLiteralPattern suffix <;> simp
  | cons c t ih =>
    by_cases hm : isRegexMeta c = true
    · simp only [escapeRegex, hm, if_true, List.cons_append]
      rw [show compileLiteralPattern ('\\' :: c :: (escapeRegex t ++ suffix)) =
        (if isRegexMeta c then
          (compileLiteralPattern (escapeRegex t ++ suffix)).map (fun l => c :: l)
        else none) from rfl]
      rw [if_pos hm, ih]
      cases compileLiteralPattern suffix <;> simp
    · have hbs : ¬c = '\\' := by
        intro hcc
        subst hcc
        exact hm rfl
      simp only [escapeRegex, hm, Bool.false_eq_true, if_false, List.cons_append]
      rw [compileLiteralPattern.eq_def]
      dsimp only
      rw [if_neg hbs, if_neg hm, ih]
      cases compileLiteralPattern suffix <;> simp

/-- The escaped bracket pattern `'\\[' + escaped + '\\]'` always compiles to
the literal matcher for `[lit]`. -/
theorem bracketPattern_compiles (lit : List Char) :
    compileLiteralPattern (('\\' :: '[' :: escapeRegex lit) ++ ['\\', ']']) =
      some ('[' :: (lit ++ [']'])) := by
  have h := compileLiteralPattern_escape lit ['\\', ']']
  have hsuf : compileLiteralPattern ['\\', ']'] = some [']'] := rfl
  rw [hsuf] at h
  show compileLiteralPattern ('\\' :: '[' :: (escapeRegex lit ++ ['\\', ']'])) = _
  rw [show compileLiteralPattern ('\\' :: '[' :: (escapeRegex lit ++ ['\\', ']'])) =
    (compileLiteralPattern (escapeRegex lit ++ ['\\', ']'])).map (fun l => '[' :: l)
    from rfl]
  rw [h]
  rfl

theorem replaceFirstCI_spec (lits value : List Char) :
    ∀ input : List Char,
      replaceFirstCI lits value input = input ∨
      ∃ pre mid suf : List Char, input = pre ++ mid ++ suf ∧
        lowerL mid = lowerL lits ∧
        replaceFirstCI lits value input = pre ++ value ++ suf := by
  intro input
  induction input with
  | nil => left; rfl
  | cons c t ih =>
    by_cases hci : ciMatchAt lits (c :: t) = true
    · right
      refine ⟨[], (c :: t).take lits.length, (c :: t).drop lits.length, ?_, ?_, ?_⟩
      · rw [List.nil_append, List.take_append_drop]
      · exact eq_of_beq hci
      · show replaceFirstCI lits value (c :: t) = _
        rw [show replaceFirstCI lits value (c :: t) =
          (if ciMatchAt lits (c :: t) then value ++ (c :: t).drop lits.length
           else c :: replaceFirstCI lits value t) from rfl]
        rw [if_pos hci, List.nil_append]
    · have hstep : replaceFirstCI lits value (c :: t) = c :: replaceFirstCI lits value t := by
        rw [show replaceFirstCI lits value (c :: t) =
          (if ciMatchAt lits (c :: t) then value ++ (c :: t).drop lits.length
           else c :: replaceFirstCI lits value t) from rfl]
        rw [if_neg hci]
      cases ih with
      | inl h =>
        left
        rw [hstep, h]
      | inr h =>
        obtain ⟨pre, mid, suf, h1, h2, h3⟩ := h
        right
        refine ⟨c :: pre, mid, suf, ?_, h2, ?_⟩
        · rw [List.cons_append, List.cons_append, ← h1]
        · rw [hstep, h3]
          rfl

/--
Claim C8 (regex-escaping safety): for every literal content — regex
metacharacters included, e.g. `"end (customer)"` — the fallback pattern
`'\\[' + escaped + '\\]'` compiles as a pure literal matcher for exactly the
bracketed text `[lit]` (so building it never throws, and it can match
nothing but that literal, case-insensitively); applying the fallback
replacement therefore either leaves the input unchanged (no occurrence) or
substitutes the value for one case-insensitive occurrence of `[lit]`,
leaving every other character unchanged.
-/
theorem escaping_safety (lit : String) :
    compileLiteralPattern (('\\' :: '[' :: escapeRegex lit.data) ++ ['\\', ']']) =
      some ('[' :: (lit.data ++ [']'])) ∧
    ∀ input value : List Char,
      fallbackReplace input lit.data value = input ∨
      ∃ pre mid suf : List Char, input = pre ++ mid ++ suf ∧
        lowerL mid = lowerL ('[' :: (lit.data ++ [']'])) ∧
        fallbackReplace input lit.data value = pre ++ value ++ suf := by
  refine ⟨bracketPattern_compiles lit.data, ?_⟩
  intro input value
  have hfb : fallbackReplace input lit.data value =
      replaceFirstCI ('[' :: (lit.data ++ [']'])) value input := by
    unfold fallbackReplace
    rw [bracketPattern_compiles lit.data]
  rw [hfb]
  exact replaceFirstCI_spec ('[' :: (lit.data ++ [']'])) value input

theorem findTokenFromIndex_some {ttr : List Char} {cti : Int} :
    ∀ (idx : Nat) (toks : List (List Char)),
      (findTokenFromIndex ttr cti idx toks).isSome = true →
      ∃ tok ∈ toks, lowerL tok = lowerL ttr := by
  intro idx toks
  induction toks generalizing idx with
  | nil =>
    intro h
    simp [findTokenFromIndex] at h
  | cons tok rest ih =>
    intro h
    simp only [findTokenFromIndex] at h
    by_cases hc : lowerL tok = lowerL ttr ∧ cti ≤ (idx : Int)
    · exact ⟨tok, List.mem_cons_self tok rest, hc.1⟩
    · rw [if_neg hc] at h
      obtain ⟨tok2, hmem, heq⟩ := ih (idx + 1) h
      exact ⟨tok2, List.mem_cons_of_mem tok hmem, heq⟩

/-- Once the replacement flag is set, the scan copies every remaining piece
unchanged. -/
theorem replaceScan_done (ttr value : List Char) (ps : List (Bool × List Char)) :
    replaceScan ttr value true ps = (ps.map Prod.snd).flatten := by
  induction ps with
  | nil => rfl
  | cons p ps ih =>
    obtain ⟨b, t⟩ := p
    have hcond : (b && !true && (lowerL t == lowerL ttr)) = false := by
      simp
    rw [show replaceScan ttr value true ((b, t) :: ps) =
      (if b && !true && (lowerL t == lowerL ttr) then
        value ++ replaceScan ttr value true ps
      else t ++ replaceScan ttr value true ps) from rfl]
    rw [hcond]
    simp only [Bool.false_eq_true, if_false, List.map_cons, List.flatten_cons]
    rw [ih]

/-- Characterization of the single-substitution scan: when some token piece
matches case-insensitively, exactly the left-most such piece is replaced by
the value, and all other pieces are emitted verbatim. -/
theorem replaceScan_spec (ttr value : List Char) :
    ∀ ps : List (Bool × List Char),
      (∃ pc ∈ ps, pc.1 = true ∧ lowerL pc.2 = lowerL ttr) →
      ∃ k : Nat, k < ps.length ∧
        (ps.getD k (false, [])).1 = true ∧
        lowerL (ps.getD k (false, [])).2 = lowerL ttr ∧
        (∀ j : Nat, j < k → ¬((ps.getD j (false, [])).1 = true ∧
          lowerL (ps.getD j (false, [])).2 = lowerL ttr)) ∧
        replaceScan ttr value false ps =
          ((ps.take k).map Prod.snd).flatten ++ value ++
            ((ps.drop (k + 1)).map Prod.snd).flatten := by
  intro ps
  induction ps with
  | nil =>
    intro hex
    obtain ⟨pc, hmem, _⟩ := hex
    cases hmem
  | cons p ps ih =>
    intro hex
    obtain ⟨b, t⟩ := p
    by_cases hhead : b = true ∧ lowerL t = lowerL ttr
    · refine ⟨0, by simp, ?_, ?_, ?_, ?_⟩
      · simpa using hhead.1
      · simpa using hhead.2
      · intro j hj
        omega
      · have hcond : (b && !false && (lowerL t == lowerL ttr)) = true := by
          rw [hhead.1]
          simp [hhead.2]
        rw [show replaceScan ttr value false ((b, t) :: ps) =
          (if b && !false && (lowerL t == lowerL ttr) then
            value ++ replaceScan ttr value true ps
          else t ++ replaceScan ttr value false ps) from rfl]
        rw [hcond]
        simp only [if_true, List.take_zero, List.map_nil, List.flatten_nil,
          List.nil_append, List.drop_succ_cons, List.drop_zero]
        rw [replaceScan_done]
    · have hex2 : ∃ pc ∈ ps, pc.1 = true ∧ lowerL pc.2 = lowerL ttr := by
        obtain ⟨pc, hmem, hp⟩ := hex
        cases List.mem_cons.mp hmem with
        | inl heq =>
          exfalso
          apply hhead
          rw [heq] at hp
          exact hp
        | inr h2 => exact ⟨pc, h2, hp⟩
      obtain ⟨k, hk, h1, h2, h3, h4⟩ := ih hex2
      have hcond : (b && !false && (lowerL t == lowerL ttr)) = false := by
        by_cases hb : b = true
        · have hne2 : ¬lowerL t = lowerL ttr := fun hcc => hhead ⟨hb, hcc⟩
          rw [hb]
          simp [hne2]
        · have hb2 : b = false := by
            cases b
            · rfl
            · exact absurd rfl hb
          rw [hb2]
          simp
      refine ⟨k + 1, by simpa using Nat.succ_lt_succ hk, ?_, ?_, ?_, ?_⟩
      · simpa using h1
      · simpa using h2
      · intro j hj
        cases j with
        | zero =>
          simpa using hhead
        | succ j =>
          have := h3 j (by omega)
          simpa using this
      · rw [show replaceScan ttr value false ((b, t) :: ps) =
          (if b && !false && (lowerL t == lowerL ttr) then
            value ++ replaceScan ttr value true ps
          else t ++ replaceScan ttr value false ps) from rfl]
        rw [hcond]
        simp only [Bool.false_eq_true, if_false]
        rw [h4]
        simp only [List.take_succ_cons, List.drop_succ_cons, List.map_cons,
          List.flatten_cons, List.append_assoc]

/-- Splitting the concatenation of the pieces at position `k`. -/
theorem flatten_split_at (ps : List (Bool × List Char)) :
    ∀ k : Nat, k < ps.length →
      (ps.map Prod.snd).flatten =
        ((ps.take k).map Prod.snd).flatten ++ (ps.getD k (false, [])).2 ++
          ((ps.drop (k + 1)).map Prod.snd).flatten := by
  induction ps with
  | nil =>
    intro k hk
    cases hk
  | cons p ps ih =>
    intro k hk
    cases k with
    | zero =>
      simp [List.getD_cons_zero]
    | succ k =>
      have hk2 : k < ps.length := by simpa using hk
      simp only [List.map_cons, List.flatten_cons, List.take_succ_cons,
        List.drop_succ_cons, List.getD_cons_succ]
      rw [ih k hk2]
      simp [List.append_assoc]

/--
Claim C3 (selective replacement): whenever the applier's token search
succeeds (non-empty active role text, stored ordinal a valid token index,
and a case-insensitively matching token at or after that ordinal), the
result substitutes the chosen value for exactly one token occurrence of
`[activeDropdown]` — always the left-most case-insensitively matching token
match of the input — and reproduces every other character of the input
unchanged.
-/
theorem selective_replacement (input activeDropdown value : String) (cti : Int)
    (hne : activeDropdown ≠ "")
    (hrange : 0 ≤ cti ∧
      cti < ((((jsSplitTokenRegex input.data).filter (fun pc => pc.1)).map
        Prod.snd).length : Int))
    (hfound : (findTokenFromIndex ('[' :: activeDropdown.data ++ [']']) cti 0
      (((jsSplitTokenRegex input.data).filter (fun pc => pc.1)).map
        Prod.snd)).isSome = true) :
    ∃ k : Nat, k < (jsSplitTokenRegex input.data).length ∧
      ((jsSplitTokenRegex input.data).getD k (false, [])).1 = true ∧
      lowerL ((jsSplitTokenRegex input.data).getD k (false, [])).2 =
        lowerL ('[' :: activeDropdown.data ++ [']']) ∧
      (∀ j : Nat, j < k →
        ¬(((jsSplitTokenRegex input.data).getD j (false, [])).1 = true ∧
          lowerL ((jsSplitTokenRegex input.data).getD j (false, [])).2 =
            lowerL ('[' :: activeDropdown.data ++ [']']))) ∧
      input.data = (((jsSplitTokenRegex input.data).take k).map Prod.snd).flatten ++
        ((jsSplitTokenRegex input.data).getD k (false, [])).2 ++
        (((jsSplitTokenRegex input.data).drop (k + 1)).map Prod.snd).flatten ∧
      (handleDropdownSelect input activeDropdown value cti).data =
        (((jsSplitTokenRegex input.data).take k).map Prod.snd).flatten ++ value.data ++
        (((jsSplitTokenRegex input.data).drop (k + 1)).map Prod.snd).flatten := by
  have hex : ∃ pc ∈ jsSplitTokenRegex input.data,
      pc.1 = true ∧ lowerL pc.2 = lowerL ('[' :: activeDropdown.data ++ [']']) := by
    obtain ⟨tok, htokmem, htokeq⟩ := findTokenFromIndex_some 0 _ hfound
    obtain ⟨pc, hpcmem, hpceq⟩ := List.mem_map.mp htokmem
    have hf := List.mem_filter.mp hpcmem
    exact ⟨pc, hf.1, by simpa using hf.2, by rw [hpceq]; exact htokeq⟩
  obtain ⟨k, hk, h1, h2, h3, h4⟩ :=
    replaceScan_spec ('[' :: activeDropdown.data ++ [']']) value.data
      (jsSplitTokenRegex input.data) hex
  have hres : (handleDropdownSelect input activeDropdown value cti).data =
      replaceScan ('[' :: activeDropdown.data ++ [']']) value.data false
        (jsSplitTokenRegex input.data) := by
    unfold handleDropdownSelect
    rw [if_neg hne]
    simp only
    rw [if_pos hrange]
    obtain ⟨j, hj⟩ := Option.isSome_iff_exists.mp hfound
    rw [hj]
  have hdecomp := flatten_split_at (jsSplitTokenRegex input.data) k hk
  rw [jsSplitTokenRegex_join] at hdecomp
  exact ⟨k, hk, h1, h2, h3, hdecomp, by rw [hres, h4]⟩

/--
Witness for claim C3 at the spec's concrete example:
`"[OEM] partnered with [OEM]"` with role text `oem`, value `Cisco` and
ordinal 0 — one occurrence (the left-most) replaced, the second untouched.
-/
theorem selective_replacement_witness :
    (∃ k : Nat, k < (jsSplitTokenRegex "[OEM] partnered with [OEM]".data).length ∧
      ((jsSplitTokenRegex "[OEM] partnered with [OEM]".data).getD k (false, [])).1 = true ∧
      lowerL ((jsSplitTokenRegex "[OEM] partnered with [OEM]".data).getD k (false, [])).2 =
        lowerL ('[' :: "oem".data ++ [']']) ∧
      (∀ j : Nat, j < k →
        ¬(((jsSplitTokenRegex "[OEM] partnered with [OEM]".data).getD j (false, [])).1 = true ∧
          lowerL ((jsSplitTokenRegex "[OEM] partnered with [OEM]".data).getD j (false, [])).2 =
            lowerL ('[' :: "oem".data ++ [']']))) ∧
      "[OEM] partnered with [OEM]".data =
        (((jsSplitTokenRegex "[OEM] partnered with [OEM]".data).take k).map Prod.snd).flatten ++
        ((jsSplitTokenRegex "[OEM] partnered with [OEM]".data).getD k (false, [])).2 ++
        (((jsSplitTokenRegex "[OEM] partnered with [OEM]".data).drop (k + 1)).map Prod.snd).flatten ∧
      (handleDropdownSelect "[OEM] partnered with [OEM]" "oem" "Cisco" 0).data =
        (((jsSplitTokenRegex "[OEM] partnered with [OEM]".data).take k).map Prod.snd).flatten ++
        "Cisco".data ++
        (((jsSplitTokenRegex "[OEM] partnered with [OEM]".data).drop (k + 1)).map Prod.snd).flatten) ∧
    handleDropdownSelect "[OEM] partnered with [OEM]" "oem" "Cisco" 0 =
      "Cisco partnered with [OEM]" :=
  ⟨selective_replacement "[OEM] partnered with [OEM]" "oem" "Cisco" 0
      (by decide) (by decide) (by decide),
    by decide⟩

/-! ## Default resolution (claim C7)

The resolver's role vocabulary is covered by seven short words: every
single-role pattern needle, every relationship-pattern part and every
fallback keyword contains one of them as a substring.  A full text that
contains none of them (lower-cased) can therefore trigger no pattern at all,
and `[Name]` resolution falls through to the documented Business Head
default. -/

/-- The covering role vocabulary. -/
def forbiddenWords : List String :=
  ["oem", "partner", "customer", "account", "head", "champ", "manager"]

theorem forbiddenWords_wf :
    forbiddenWords.all (fun f =>
      !f.data.isEmpty && f.data.all (fun c => !(c == ' '))) = true := by decide

theorem rolePatterns_covered :
    rolePatterns.all (fun pr => pr.1.all (fun n =>
      forbiddenWords.any (fun f => containsSub n.data f.data))) = true := by decide

theorem multiNamePatterns_covered :
    multiNamePatterns.all (fun mp => mp.1.all (fun parts =>
      parts.any (fun part =>
        forbiddenWords.any (fun f => containsSub part.data f.data)))) = true := by decide

theorem keywordToRole_covered :
    keywordToRole.all (fun kr => kr.1.all (fun k =>
      forbiddenWords.any (fun f => containsSub k.data f.data))) = true := by decide

theorem containsSub_iff_isInfix (hay needle : List Char) :
    containsSub hay needle = true ↔ needle <:+: hay := by
  induction hay with
  | nil =>
    simp only [containsSub, List.isEmpty_iff]
    constructor
    · intro h
      rw [h]
    · intro h
      exact List.infix_nil.mp h
  | cons c tail ih =>
    simp only [containsSub, Bool.or_eq_true, ih, List.isPrefixOf_iff_prefix]
    exact (List.infix_cons_iff).symm

theorem testWBFrom_isInfix (needle : List Char) :
    ∀ (prev : Option Char) (hay : List Char),
      testWBFrom needle prev hay = true → needle <:+: hay := by
  intro prev hay
  induction hay generalizing prev with
  | nil =>
    intro h
    simp only [testWBFrom, Bool.and_eq_true] at h
    have hp := h.1
    simp only [wbHeadAt, Bool.and_eq_true, List.isPrefixOf_iff_prefix] at hp
    have hn : needle = [] := List.prefix_nil.mp hp.1
    rw [hn]
  | cons c t ih =>
    intro h
    simp only [testWBFrom, Bool.or_eq_true] at h
    cases h with
    | inl h1 =>
      rw [Bool.and_eq_true] at h1
      have hp := h1.1
      simp only [wbHeadAt, Bool.and_eq_true, List.isPrefixOf_iff_prefix] at hp
      exact hp.1.isInfix
    | inr h2 =>
      exact List.infix_cons (ih (some c) h2)

theorem seqGap_isInfix : ∀ (fuel : Nat) (parts : List (List Char)) (hay : List Char),
    seqGap fuel parts hay = true → ∀ p ∈ parts, p <:+: hay := by
  intro fuel
  induction fuel with
  | zero =>
    intro parts hay h p hp
    cases parts with
    | nil => cases hp
    | cons q qs => simp [seqGap] at h
  | succ fuel ih =>
    intro parts hay h p hp
    cases parts with
    | nil => cases hp
    | cons q qs =>
      cases hay with
      | nil =>
        simp only [seqGap, Bool.or_eq_true, Bool.and_eq_true,
          List.isPrefixOf_iff_prefix] at h
        cases h with
        | inl h1 =>
          obtain ⟨hq, hrest⟩ := h1
          have hqnil : q = [] := List.prefix_nil.mp hq
          cases List.mem_cons.mp hp with
          | inl heq =>
            rw [heq, hqnil]
          | inr hmem =>
            have := ih qs (List.drop q.length []) hrest p hmem
            simpa using this
        | inr h1 => cases h1
      | cons c t =>
        simp only [seqGap, Bool.or_eq_true, Bool.and_eq_true,
          List.isPrefixOf_iff_prefix] at h
        cases h with
        | inl h1 =>
          obtain ⟨hq, hrest⟩ := h1
          cases List.mem_cons.mp hp with
          | inl heq =>
            rw [heq]
            exact hq.isInfix
          | inr hmem =>
            have := ih qs ((c :: t).drop q.length) hrest p hmem
            exact this.trans (List.drop_suffix _ _).isInfix
        | inr h1 =>
          have := ih (q :: qs) t h1.2 p hp
          exact List.infix_cons this

theorem seqStart_isInfix : ∀ (fuel : Nat) (parts : List (List Char)) (hay : List Char),
    seqStart fuel parts hay = true → ∀ p ∈ parts, p <:+: hay := by
  intro fuel
  induction fuel with
  | zero =>
    intro parts hay h p hp
    cases parts with
    | nil => cases hp
    | cons q qs => simp [seqStart] at h
  | succ fuel ih =>
    intro parts hay h p hp
    cases parts with
    | nil => cases hp
    | cons q qs =>
      cases hay with
      | nil =>
        simp only [seqStart, Bool.or_eq_true, Bool.and_eq_true,
          List.isPrefixOf_iff_prefix] at h
        cases h with
        | inl h1 =>
          obtain ⟨hq, hrest⟩ := h1
          have hqnil : q = [] := List.prefix_nil.mp hq
          cases List.mem_cons.mp hp with
          | inl heq =>
            rw [heq, hqnil]
          | inr hmem =>
            have := seqGap_isInfix fuel qs (List.drop q.length []) hrest p hmem
            simpa using this
        | inr h1 => cases h1
      | cons c t =>
        simp only [seqStart, Bool.or_eq_true, Bool.and_eq_true,
          List.isPrefixOf_iff_prefix] at h
        cases h with
        | inl h1 =>
          obtain ⟨hq, hrest⟩ := h1
          cases List.mem_cons.mp hp with
          | inl heq =>
            rw [heq]
            exact hq.isInfix
          | inr hmem =>
            have := seqGap_isInfix fuel qs ((c :: t).drop q.length) hrest p hmem
            exact this.trans (List.drop_suffix _ _).isInfix
        | inr h1 =>
          have := ih (q :: qs) t h1 p hp
          exact List.infix_cons this

theorem seqMatch_isInfix {parts : List (List Char)} {hay : List Char}
    (h : seqMatch parts hay = true) : ∀ p ∈ parts, p <:+: hay :=
  seqStart_isInfix _ parts hay h

theorem splitWsF_isInfix : ∀ (fuel : Nat) (cs w : List Char),
    w ∈ splitWsF fuel cs → w <:+: cs := by
  intro fuel
  induction fuel with
  | zero =>
    intro cs w h
    simp [splitWsF] at h
  | succ fuel ih =>
    intro cs w h
    cases cs with
    | nil => simp [splitWsF] at h
    | cons c t =>
      simp only [splitWsF] at h
      by_cases hws : isWs c = true
      · rw [if_pos hws] at h
        exact List.infix_cons (ih t w h)
      · rw [if_neg hws] at h
        cases List.mem_cons.mp h with
        | inl heq =>
          rw [heq]
          have hpre : t.takeWhile (fun d => !isWs d) <+: t :=
            List.takeWhile_prefix _
          have : c :: t.takeWhile (fun d => !isWs d) <+: c :: t :=
            List.cons_prefix_cons.mpr ⟨rfl, hpre⟩
          exact this.isInfix
        | inr hmem =>
          have h1 := ih (t.dropWhile (fun d => !isWs d)) w hmem
          have h2 : w <:+: t := h1.trans (List.dropWhile_suffix _).isInfix
          exact List.infix_cons h2

theorem prefix_avoid {s : Char} : ∀ (A : List Char) {n B : List Char},
    n <+: A ++ s :: B → s ∉ n → n <+: A := by
  intro A
  induction A with
  | nil =>
    intro n B h hs
    cases n with
    | nil => exact List.nil_prefix
    | cons x n2 =>
      exfalso
      rw [List.nil_append, List.cons_prefix_cons] at h
      exact hs (by rw [← h.1]; exact List.mem_cons_self x n2)
  | cons a A2 ih =>
    intro n B h hs
    cases n with
    | nil => exact List.nil_prefix
    | cons x n2 =>
      rw [List.cons_append, List.cons_prefix_cons] at h
      obtain ⟨hx, h2⟩ := h
      subst hx
      exact List.cons_prefix_cons.mpr
        ⟨rfl, ih h2 (fun hm => hs (List.mem_cons_of_mem _ hm))⟩

theorem isInfix_append_sep {s : Char} : ∀ (A : List Char) {n B : List Char},
    n <:+: A ++ s :: B → s ∉ n → n <:+: A ∨ n <:+: B := by
  intro A
  induction A with
  | nil =>
    intro n B h hs
    rw [List.nil_append, List.infix_cons_iff] at h
    cases h with
    | inl hp =>
      left
      have h2 : n <+: ([] : List Char) ++ s :: B := by simpa using hp
      have h3 := prefix_avoid [] h2 hs
      rw [List.prefix_nil.mp h3]
    | inr hi => right; exact hi
  | cons a A2 ih =>
    intro n B h hs
    rw [List.cons_append, List.infix_cons_iff] at h
    cases h with
    | inl hp =>
      left
      have h2 : n <+: (a :: A2) ++ s :: B := by simpa using hp
      exact (prefix_avoid (a :: A2) h2 hs).isInfix
    | inr hi =>
      cases ih hi hs with
      | inl h3 => left; exact List.infix_cons h3
      | inr h3 => right; exact h3

theorem joinSpace_infix_word {n : List Char} (hne : n ≠ [])
    (hs : (' ' : Char) ∉ n) :
    ∀ ws : List (List Char), n <:+: joinSpace ws → ∃ w ∈ ws, n <:+: w := by
  intro ws
  induction ws with
  | nil =>
    intro h
    rw [show joinSpace [] = [] from rfl] at h
    exact absurd (List.infix_nil.mp h) hne
  | cons w ws ih =>
    intro h
    cases ws with
    | nil =>
      refine ⟨w, List.mem_cons_self _ _, ?_⟩
      rw [show joinSpace [w] = w from rfl] at h
      exact h
    | cons w2 ws2 =>
      rw [show joinSpace (w :: w2 :: ws2) = w ++ ' ' :: joinSpace (w2 :: ws2)
        from rfl] at h
      cases isInfix_append_sep w h hs with
      | inl h1 => exact ⟨w, List.mem_cons_self _ _, h1⟩
      | inr h1 =>
        obtain ⟨w3, hmem, h3⟩ := ih h1
        exact ⟨w3, List.mem_cons_of_mem _ hmem, h3⟩

theorem lowerL_take (pos : Nat) (ctx : List Char) :
    lowerL (ctx.take pos) = (lowerL ctx).take pos :=
  List.map_take Char.toLower ctx pos

theorem no_forbidden_textBefore {ctx : List Char} (pos : Nat)
    (hforb : ∀ f ∈ forbiddenWords, ¬(f.data <:+: lowerL ctx)) :
    ∀ f ∈ forbiddenWords, ¬(f.data <:+: lowerL (ctx.take pos)) := by
  intro f hf hin
  apply hforb f hf
  rw [lowerL_take] at hin
  exact hin.trans (List.take_prefix pos (lowerL ctx)).isInfix

theorem no_forbidden_recent {ctx : List Char} (pos : Nat)
    (hforb : ∀ f ∈ forbiddenWords, ¬(f.data <:+: lowerL ctx)) :
    ∀ f ∈ forbiddenWords, ¬(f.data <:+: recentWindow (lowerL (ctx.take pos))) := by
  intro f hf hin
  have hwf := List.all_eq_true.mp forbiddenWords_wf f hf
  rw [Bool.and_eq_true] at hwf
  have hne : f.data ≠ [] := by
    intro hemp
    rw [hemp] at hwf
    simp at hwf
  have hsp : (' ' : Char) ∉ f.data := by
    intro hmem
    have := List.all_eq_true.mp hwf.2 ' ' hmem
    simp at this
  unfold recentWindow at hin
  obtain ⟨w, hwmem, hinw⟩ := joinSpace_infix_word hne hsp _ hin
  have hw2 : w ∈ splitWsF (lowerL (ctx.take pos)).length (lowerL (ctx.take pos)) :=
    List.mem_of_mem_drop hwmem
  have hw3 : w <:+: lowerL (ctx.take pos) := splitWsF_isInfix _ _ w hw2
  exact no_forbidden_textBefore pos hforb f hf (hinw.trans hw3)

theorem keywordFallback_none {ctx : List Char}
    (hforb : ∀ f ∈ forbiddenWords, ¬(f.data <:+: lowerL ctx)) :
    keywordFallback (lowerL ctx) = none := by
  unfold keywordFallback
  have hnone : keywordToRole.find?
      (fun kr => kr.1.any (fun k => containsSub (lowerL ctx) k.data)) = none := by
    apply List.find?_eq_none.mpr
    intro kr hkr hany
    obtain ⟨k, hk, hck⟩ := List.any_eq_true.mp hany
    have hk_inf : k.data <:+: lowerL ctx := (containsSub_iff_isInfix _ _).mp hck
    have hcov := List.all_eq_true.mp
      (List.all_eq_true.mp keywordToRole_covered kr hkr) k hk
    obtain ⟨f, hf, hcf⟩ := List.any_eq_true.mp hcov
    have hf_inf : f.data <:+: k.data := (containsSub_iff_isInfix _ _).mp hcf
    exact hforb f hf (hf_inf.trans hk_inf)
  rw [hnone]

theorem firstRolePattern_none {ctx : List Char} (pos : Nat)
    (hforb : ∀ f ∈ forbiddenWords, ¬(f.data <:+: lowerL ctx)) :
    firstRolePattern (recentWindow (lowerL (ctx.take pos)))
      (lowerL (ctx.take pos)) = none := by
  unfold firstRolePattern
  have hnone : rolePatterns.find? (fun pr =>
      testAnyWB pr.1 (recentWindow (lowerL (ctx.take pos))) ||
      testAnyWB pr.1 (lowerL (ctx.take pos))) = none := by
    apply List.find?_eq_none.mpr
    intro pr hpr hor
    rw [Bool.or_eq_true] at hor
    cases hor with
    | inl hrec =>
      obtain ⟨n, hn, htest⟩ := List.any_eq_true.mp hrec
      have hinf : n.data <:+: recentWindow (lowerL (ctx.take pos)) :=
        testWBFrom_isInfix n.data none _ htest
      have hcov := List.all_eq_true.mp
        (List.all_eq_true.mp rolePatterns_covered pr hpr) n hn
      obtain ⟨f, hf, hcf⟩ := List.any_eq_true.mp hcov
      have hf_inf : f.data <:+: n.data := (containsSub_iff_isInfix _ _).mp hcf
      exact no_forbidden_recent pos hforb f hf (hf_inf.trans hinf)
    | inr hbef =>
      obtain ⟨n, hn, htest⟩ := List.any_eq_true.mp hbef
      have hinf : n.data <:+: lowerL (ctx.take pos) :=
        testWBFrom_isInfix n.data none _ htest
      have hcov := List.all_eq_true.mp
        (List.all_eq_true.mp rolePatterns_covered pr hpr) n hn
      obtain ⟨f, hf, hcf⟩ := List.any_eq_true.mp hcov
      have hf_inf : f.data <:+: n.data := (containsSub_iff_isInfix _ _).mp hcf
      exact no_forbidden_textBefore pos hforb f hf (hf_inf.trans hinf)
  rw [hnone]

theorem firstMultiName_none {ctx : List Char}
    (hforb : ∀ f ∈ forbiddenWords, ¬(f.data <:+: lowerL ctx)) :
    firstMultiName (lowerL ctx) = none := by
  unfold firstMultiName
  have hnone : multiNamePatterns.find?
      (fun mp => testMulti mp.1 (lowerL ctx)) = none := by
    apply List.find?_eq_none.mpr
    intro mp hmp htest
    unfold testMulti at htest
    obtain ⟨parts, hparts, hseq⟩ := List.any_eq_true.mp htest
    have hall := seqMatch_isInfix hseq
    have hcov := List.all_eq_true.mp
      (List.all_eq_true.mp multiNamePatterns_covered mp hmp) parts hparts
    obtain ⟨part, hpart, hpartf⟩ := List.any_eq_true.mp hcov
    obtain ⟨f, hf, hcf⟩ := List.any_eq_true.mp hpartf
    have hpart_inf : part.data <:+: lowerL ctx :=
      hall part.data (List.mem_map_of_mem String.data hpart)
    have hf_inf : f.data <:+: part.data := (containsSub_iff_isInfix _ _).mp hcf
    exact hforb f hf (hf_inf.trans hpart_inf)
  rw [hnone]

/--
Claim C7 (default resolution): whenever the literal is `name` and the full
text contains none of the resolver's role vocabulary — no occurrence of
"oem", "partner", "customer", "account", "head", "champ" or "manager" in its
lower-cased form — then no position-based pattern, relationship pattern or
whole-text keyword can match, and resolve returns Business Head rather than
failing or erroring; in particular (the witness)
`resolve("name", "just some text with no role hints", 0) = "Business Head"`.
-/
theorem name_default_business_head (t : String) (i : Int)
    (hforb : ∀ f ∈ forbiddenWords, containsSub (lowerL t.data) f.data = false) :
    getRoleFromPlaceholder "name" t i = JSVal.str "Business Head" := by
  have hforb2 : ∀ f ∈ forbiddenWords, ¬(f.data <:+: lowerL t.data) := by
    intro f hf hin
    have hc := (containsSub_iff_isInfix _ _).mpr hin
    rw [hforb f hf] at hc
    cases hc
  show JSVal.str (nameResolveFuel (t.data.length + 1) t.data i) =
    JSVal.str "Business Head"
  congr 1
  simp only [nameResolveFuel]
  have hkw : keywordFallback (lowerL t.data) = none := keywordFallback_none hforb2
  by_cases hi : 0 ≤ i
  · rw [if_pos hi]
    cases hfn : findNthNameF (t.data.length + 1) t.data i.toNat 0 with
    | none =>
      dsimp only
      rw [hkw]
    | some pos =>
      dsimp only
      have hrp := firstRolePattern_none pos hforb2
      have hmn := firstMultiName_none hforb2
      simp only [nameAtPos, hrp, hmn]
      rw [hkw]
  · rw [if_neg hi]
    dsimp only
    rw [hkw]

/-- Witness for claim C7: the spec's concrete default-resolution example. -/
theorem name_default_business_head_witness :
    getRoleFromPlaceholder "name" "just some text with no role hints" 0 =
      JSVal.str "Business Head" :=
  name_default_business_head "just some text with no role hints" 0 (by decide)

end IvalueChatbot
